import Mathlib

/-!
A shallow embedding of the core of `git-subcopy` (`src/lib.rs`) together with
proofs about its behaviour.

The embedding covers:

* a filesystem model (`FsEntry`, `FS`) used both by tree extraction
  (`App::extract`) and the sync-session copy loops (`App::with_repo`);
* the git tree objects fed to extraction (`GObj`), the pre-order walk that
  `git2::Tree::walk` performs (`preorderE`), and the extraction itself
  (`extract`, `runWalk`, `stepEntry`);
* the `.gitcopies` key/value store used by `App::register`, `App::get`,
  `App::list` (`Config`, `setStr`, `getString`, `register`, `get`,
  `entryPattern`, `middleOf`);
* the mirror cache path derivation of `App::fetch` (URL-safe, padding-free
  base64: `b64chunks`, `b64char`, `mirrorPath`, `fetch`);
* the sync session `App::with_repo` copy-in / callback / copy-out pipeline
  (`copyTreeE`, `copyIn`, `withRepo`).
-/

namespace GitSubcopy

/-- A filesystem entry: a directory or a regular file with byte contents.
Filesystem state is an ordered list of entries; the order is the order in
which entries were created, which is also the order a recursive directory
walk (`walkdir::WalkDir`) yields them (parents before children). -/
inductive FsEntry where
  | dir : List String → FsEntry
  | file : List String → List Nat → FsEntry
deriving DecidableEq, Repr

/-- A filesystem (or one directory subtree of it) as an ordered entry list. -/
abbrev FS := List FsEntry

/-- The path of an entry. -/
def pathOfE : FsEntry → List String
  | FsEntry.dir p => p
  | FsEntry.file p _ => p

/-- All nonempty prefixes of a path, shortest first: exactly the directories
`std::fs::create_dir_all` creates (or finds) when asked for this path. -/
def nePrefixes (p : List String) : List (List String) :=
  (List.range p.length).map fun i => p.take (i + 1)

/-- Whether a directory exists at `p`. -/
def hasDir (fs : FS) (p : List String) : Bool :=
  fs.any fun e => match e with
    | FsEntry.dir q => decide (q = p)
    | FsEntry.file _ _ => false

/-- Whether a regular file exists at `p`. -/
def hasFileAt (fs : FS) (p : List String) : Bool :=
  fs.any fun e => match e with
    | FsEntry.file q _ => decide (q = p)
    | FsEntry.dir _ => false

/-- The content of the file at `p`; the last write wins, so the tail of
the entry list is consulted first. -/
def lookupFile (fs : FS) (p : List String) : Option (List Nat) :=
  match fs with
  | [] => none
  | FsEntry.dir _ :: rest => lookupFile rest p
  | FsEntry.file q c :: rest =>
    match lookupFile rest p with
    | some c' => some c'
    | none => if q = p then some c else none

/-- Errors surfaced by `App::extract`: a non-UTF-8 entry name
(`anyhow!("name is not utf-8 encoded")`), an I/O failure at a path, or a
revision/path object that is neither blob nor tree (`peel_to_tree` failing
in the outer `else` branch). -/
inductive ExtractErr where
  | nonUtf8 : ExtractErr
  | io : List String → ExtractErr
  | notTreeLike : ExtractErr
deriving DecidableEq, Repr

/-- Model of `std::fs::write(path, content)`: fails when the parent
directory does not exist or when `path` is itself a directory; otherwise
replaces/creates the file. The root `[]` always exists. -/
def fsWrite (p : List String) (c : List Nat) (fs : FS) : Except ExtractErr FS :=
  if (p.dropLast.isEmpty || hasDir fs p.dropLast) && !hasDir fs p then
    Except.ok ((fs.filter fun e => match e with
      | FsEntry.file q _ => decide (q ≠ p)
      | FsEntry.dir _ => true) ++ [FsEntry.file p c])
  else
    Except.error (ExtractErr.io p)

/-- Model of `std::fs::create_dir_all(path)`: fails when a regular file sits
at `path` or any of its ancestors; otherwise creates every missing ancestor
directory of `path` and `path` itself, shortest first. -/
def createDirAll (p : List String) (fs : FS) : Except ExtractErr FS :=
  if (nePrefixes p).any fun q => hasFileAt fs q then
    Except.error (ExtractErr.io p)
  else
    Except.ok (fs ++ (nePrefixes p).filterMap fun q =>
      if hasDir fs q then none else some (FsEntry.dir q))

mutual

/-- A git object as seen by `App::extract`: a blob with byte contents, a
tree with named (or non-UTF-8-named, `none`) children, or anything else
(e.g. a submodule commit), for which both `peel_to_blob` and `peel_to_tree`
fail. -/
inductive GObj where
  | blob : List Nat → GObj
  | tree : GEntries → GObj
  | other : GObj

/-- The ordered entry list of a git tree; each entry has a name as
`TreeEntry::name` reports it (`none` when not UTF-8) and an object. -/
inductive GEntries where
  | nil : GEntries
  | cons : Option String → GObj → GEntries → GEntries

end

/-- What the walk callback learns about an entry's object. -/
inductive WKind where
  | wblob : List Nat → WKind
  | wtree : WKind
  | wother : WKind
deriving DecidableEq, Repr

/-- One callback invocation of `git2::Tree::walk`: the containing directory
relative to the walk root, the entry name as `entry.name()` reports it
(`none` when not UTF-8), and the entry's object kind. -/
abbrev WalkItem := List String × Option String × WKind

def kindOf : GObj → WKind
  | GObj.blob c => WKind.wblob c
  | GObj.tree _ => WKind.wtree
  | GObj.other => WKind.wother

mutual

/-- The sequence of callback invocations `git2::Tree::walk` in
`TreeWalkMode::PreOrder` produces for the entries of a tree whose own path
relative to the walk root is `dir`: each entry first, then (for a tree
entry) its descendants, then the following siblings. -/
def preorderE (dir : List String) : GEntries → List WalkItem
  | GEntries.nil => []
  | GEntries.cons nm obj rest =>
      (dir, nm, kindOf obj) :: (childItems dir nm obj ++ preorderE dir rest)

/-- The descendant callback invocations contributed by one entry: nonempty
only for a UTF-8-named sub-tree. Children of an entry whose name is not
UTF-8 are omitted; the walk aborts at that entry before ever reaching
them. -/
def childItems (dir : List String) : Option String → GObj → List WalkItem
  | some n, GObj.tree es => preorderE (dir ++ [n]) es
  | some _, GObj.blob _ => []
  | some _, GObj.other => []
  | none, _ => []

end

/-- The body of the walk callback in `App::extract` (the closure `inner`):
fail on a non-UTF-8 name, write blobs with `fs::write`, create directories
for sub-trees with `fs::create_dir_all`, silently skip anything else. -/
def stepEntry (dest : List String) (fs : FS) : WalkItem → Except ExtractErr FS
  | (_, none, _) => Except.error ExtractErr.nonUtf8
  | (dir, some n, WKind.wblob c) => fsWrite (dest ++ dir ++ [n]) c fs
  | (dir, some n, WKind.wtree) => createDirAll (dest ++ dir ++ [n]) fs
  | (_, some _, WKind.wother) => Except.ok fs

/-- Running the walk callback over a callback sequence: the first failing
entry aborts the remaining traversal (`TreeWalkResult::Abort`) and its
error is returned together with the filesystem as already modified. -/
def runWalk (dest : List String) : List WalkItem → FS → FS × Option ExtractErr
  | [], fs => (fs, none)
  | it :: rest, fs =>
    match stepEntry dest fs it with
    | Except.ok fs' => runWalk dest rest fs'
    | Except.error e => (fs, some e)

/-- Model of `App::extract` after the source path's entry has been resolved
to `obj` with name `entryName`: a blob is written directly under `dest`
named by the entry's final path component; a tree is walked pre-order with
`stepEntry`; anything else fails (`peel_to_tree` error). -/
def extract (obj : GObj) (entryName : Option String) (dest : List String)
    (fs : FS) : FS × Option ExtractErr :=
  match obj with
  | GObj.blob c =>
    match entryName with
    | none => (fs, some ExtractErr.nonUtf8)
    | some n =>
      match fsWrite (dest ++ [n]) c fs with
      | Except.ok fs' => (fs', none)
      | Except.error e => (fs, some e)
  | GObj.tree es => runWalk dest (preorderE [] es) fs
  | GObj.other => (fs, some ExtractErr.notTreeLike)

/-- Shift an entry's path under a path prefix. -/
def prependPath (pre : List String) : FsEntry → FsEntry
  | FsEntry.dir p => FsEntry.dir (pre ++ p)
  | FsEntry.file p c => FsEntry.file (pre ++ p) c

mutual

/-- The filesystem content a tree's entry list denotes, relative to the
tree itself, in pre-order: for each UTF-8-named entry a file (blob), or a
directory followed by its descendants (sub-tree); entries that are neither
blob nor tree contribute nothing. -/
def treeEntriesE : GEntries → List FsEntry
  | GEntries.nil => []
  | GEntries.cons nm obj rest => entryContent nm obj ++ treeEntriesE rest

/-- The filesystem content one entry denotes. -/
def entryContent : Option String → GObj → List FsEntry
  | some n, GObj.blob c => [FsEntry.file [n] c]
  | some n, GObj.tree es => FsEntry.dir [n] :: (treeEntriesE es).map (prependPath [n])
  | some _, GObj.other => []
  | none, _ => []

end

/-- The entry names of a tree, in order. -/
def namesE : GEntries → List (Option String)
  | GEntries.nil => []
  | GEntries.cons nm _ rest => nm :: namesE rest

mutual

/-- Well-formedness of a git tree's entry list, as git itself guarantees
it for real trees made of blobs and sub-trees: every entry is a
UTF-8-named blob or tree, and sibling names are distinct. -/
def wfE : GEntries → Bool
  | GEntries.nil => true
  | GEntries.cons nm obj rest =>
    (match nm with
     | none => false
     | some n => (namesE rest).all fun m => decide (m ≠ some n)) &&
    (wfObj obj && wfE rest)

/-- Well-formedness of a single object: a blob, or a well-formed tree. -/
def wfObj : GObj → Bool
  | GObj.blob _ => true
  | GObj.tree es => wfE es
  | GObj.other => false

end

/-! ### List and filesystem helper lemmas -/

theorem nePrefixes_concat (l : List String) (a : String) :
    nePrefixes (l ++ [a]) = nePrefixes l ++ [l ++ [a]] := by
  simp only [nePrefixes, List.length_append, List.length_cons, List.length_nil,
    Nat.zero_add, List.range_succ, List.map_append, List.map_cons, List.map_nil]
  refine congrArg₂ (· ++ ·) ?_ ?_
  · refine List.map_congr_left fun i hi => ?_
    rw [List.mem_range] at hi
    exact List.take_append_of_le_length (by omega)
  · have : (l ++ [a]).take (l.length + 1) = l ++ [a] := by
      have hlen : (l ++ [a]).length = l.length + 1 := by simp
      rw [← hlen, List.take_length]
    rw [this]

theorem prefix_of_mem_nePrefixes {q l : List String} (h : q ∈ nePrefixes l) :
    q <+: l := by
  unfold nePrefixes at h
  obtain ⟨i, _, rfl⟩ := List.mem_map.mp h
  exact List.take_prefix _ _

theorem self_mem_nePrefixes {l : List String} (h : l ≠ []) : l ∈ nePrefixes l := by
  unfold nePrefixes
  have hpos : 0 < l.length := List.length_pos.mpr h
  refine List.mem_map.mpr ⟨l.length - 1, List.mem_range.mpr (by omega), ?_⟩
  rw [Nat.sub_add_cancel hpos, List.take_length]

theorem not_concat_prefix (l : List String) (a : String) : ¬ (l ++ [a] <+: l) := by
  intro h
  have := h.length_le
  simp at this

theorem concat_prefix_append {l t : List String} {a b : String}
    (h : l ++ [a] <+: l ++ b :: t) : a = b := by
  obtain ⟨s, hs⟩ := h
  rw [List.append_assoc] at hs
  have h2 := List.append_cancel_left hs
  simpa using congrArg (fun x => x.head?) h2

theorem prefix_concat_cases {q l : List String} {a : String} (h : q <+: l ++ [a]) :
    q <+: l ∨ q = l ++ [a] := by
  rcases Nat.lt_or_ge q.length (l ++ [a]).length with hl | hl
  · left
    refine List.prefix_of_prefix_length_le h (List.prefix_append l [a]) ?_
    simp at hl ⊢; omega
  · right
    exact h.eq_of_length (Nat.le_antisymm h.length_le hl)

theorem hasDir_append (l₁ l₂ : FS) (p : List String) :
    hasDir (l₁ ++ l₂) p = (hasDir l₁ p || hasDir l₂ p) := by
  simp [hasDir, List.any_append]

theorem hasFileAt_append (l₁ l₂ : FS) (p : List String) :
    hasFileAt (l₁ ++ l₂) p = (hasFileAt l₁ p || hasFileAt l₂ p) := by
  simp [hasFileAt, List.any_append]

theorem hasDir_iff {fs : FS} {p : List String} :
    hasDir fs p = true ↔ FsEntry.dir p ∈ fs := by
  simp only [hasDir, List.any_eq_true]
  constructor
  · rintro ⟨e, he, hm⟩
    cases e with
    | dir q =>
      simp only [decide_eq_true_eq] at hm
      rw [← hm]; exact he
    | file q c => simp at hm
  · intro h
    exact ⟨FsEntry.dir p, h, by simp⟩

theorem hasFileAt_iff {fs : FS} {p : List String} :
    hasFileAt fs p = true ↔ ∃ c, FsEntry.file p c ∈ fs := by
  simp only [hasFileAt, List.any_eq_true]
  constructor
  · rintro ⟨e, he, hm⟩
    cases e with
    | dir q => simp at hm
    | file q c =>
      simp only [decide_eq_true_eq] at hm
      exact ⟨c, by rw [← hm]; exact he⟩
  · rintro ⟨c, h⟩
    exact ⟨FsEntry.file p c, h, by simp⟩

theorem hasDir_file_singleton (p q : List String) (c : List Nat) :
    hasDir [FsEntry.file q c] p = false := rfl

theorem append_ne_nil_left {α : Type} {l m : List α} (h : l ≠ []) : l ++ m ≠ [] := by
  cases l with
  | nil => exact absurd rfl h
  | cons a l => simp

theorem not_append_cons_prefix (l : List String) (a : String) (x : List String) :
    ¬ (l ++ a :: x <+: l) := by
  intro h
  have := h.length_le
  simp only [List.length_append, List.length_cons] at this
  omega

theorem prependPath_prependPath (a b : List String) (e : FsEntry) :
    prependPath a (prependPath b e) = prependPath (a ++ b) e := by
  cases e <;> simp [prependPath]

theorem pathOfE_prependPath (a : List String) (e : FsEntry) :
    pathOfE (prependPath a e) = a ++ pathOfE e := by
  cases e <;> simp [prependPath, pathOfE]

theorem runWalk_append (dest : List String) (l₁ l₂ : List WalkItem) (fs : FS) :
    runWalk dest (l₁ ++ l₂) fs =
      match runWalk dest l₁ fs with
      | (fs', none) => runWalk dest l₂ fs'
      | (fs', some e) => (fs', some e) := by
  induction l₁ generalizing fs with
  | nil => simp [runWalk]
  | cons it rest ih =>
    simp only [List.cons_append, runWalk]
    cases stepEntry dest fs it with
    | ok fs' => exact ih fs'
    | error e => rfl

/-- Core lemma for successful extraction: walking the pre-order callback
sequence of a well-formed entry list over a filesystem that has the current
directory in place and no entry at or below any of the walked names
appends exactly the entry list's denoted content, in walk order, and
reports no error. -/
theorem runWalk_preorder_eq (dest dir : List String) (es : GEntries) (fs : FS)
    (hdest : dest ≠ [])
    (hwf : wfE es = true)
    (hpre : ∀ q ∈ nePrefixes (dest ++ dir), hasDir fs q = true)
    (hnof : ∀ p c, FsEntry.file p c ∈ fs → ¬ (p <+: dest ++ dir))
    (hfresh : ∀ m, some m ∈ namesE es →
      ∀ e ∈ fs, ¬ (dest ++ dir ++ [m] <+: pathOfE e)) :
    runWalk dest (preorderE dir es) fs =
      (fs ++ (treeEntriesE es).map (prependPath (dest ++ dir)), none) := by
  cases es with
  | nil => simp [preorderE, runWalk, treeEntriesE]
  | cons nm obj rest =>
    cases nm with
    | none => simp [wfE] at hwf
    | some n =>
      simp only [wfE, Bool.and_eq_true, List.all_eq_true, decide_eq_true_eq] at hwf
      obtain ⟨hdistinct, hwfobj, hwfrest⟩ := hwf
      have hheadname : some n ∈ namesE (GEntries.cons (some n) obj rest) := by
        simp [namesE]
      have htailname : ∀ m, some m ∈ namesE rest →
          some m ∈ namesE (GEntries.cons (some n) obj rest) := by
        intro m hm
        simp only [namesE, List.mem_cons]
        right; exact hm
      have hcurne : dest ++ dir ≠ [] := append_ne_nil_left hdest
      have hnotdir : hasDir fs (dest ++ dir ++ [n]) = false := by
        by_contra hc
        rw [Bool.not_eq_false, hasDir_iff] at hc
        refine hfresh n hheadname _ hc ?_
        simp only [pathOfE]
        exact List.prefix_refl _
      cases obj with
      | other => simp [wfObj] at hwfobj
      | blob c =>
        have hfsw : fsWrite (dest ++ dir ++ [n]) c fs =
            Except.ok (fs ++ [FsEntry.file (dest ++ dir ++ [n]) c]) := by
          rw [fsWrite]
          have hdl : (dest ++ dir ++ [n]).dropLast = dest ++ dir :=
            List.dropLast_concat
          have hcur : hasDir fs (dest ++ dir) = true :=
            hpre _ (self_mem_nePrefixes hcurne)
          rw [hdl, hcur, hnotdir]
          simp only [Bool.or_true, Bool.not_false, Bool.and_self, if_true]
          congr 1
          have hfilter : (fs.filter fun e => match e with
              | FsEntry.file q _ => decide (q ≠ dest ++ dir ++ [n])
              | FsEntry.dir _ => true) = fs := by
            apply List.filter_eq_self.mpr
            intro e he
            cases e with
            | dir q => rfl
            | file q c' =>
              simp only [decide_eq_true_eq]
              intro hq
              subst hq
              refine hfresh n hheadname _ he ?_
              simp only [pathOfE]
              exact List.prefix_refl _
          rw [hfilter]
        have ih := runWalk_preorder_eq dest dir rest
            (fs ++ [FsEntry.file (dest ++ dir ++ [n]) c]) hdest hwfrest
            (by
              intro q hq
              rw [hasDir_append, hpre q hq, Bool.true_or])
            (by
              intro p c' hmem
              rcases List.mem_append.mp hmem with h1 | h2
              · exact hnof p c' h1
              · rw [List.mem_singleton] at h2
                injection h2 with hp _
                subst hp
                exact not_append_cons_prefix (dest ++ dir) n [])
            (by
              intro m hm e he
              rcases List.mem_append.mp he with h1 | h2
              · exact hfresh m (htailname m hm) e h1
              · rw [List.mem_singleton] at h2
                subst h2
                simp only [pathOfE]
                intro hp
                exact (hdistinct (some m) hm) (by rw [concat_prefix_append hp]))
        simp only [preorderE, childItems, kindOf, List.nil_append, runWalk, stepEntry, hfsw]
        rw [ih]
        simp [treeEntriesE, entryContent, prependPath, List.append_assoc]
      | tree es' =>
        rw [show wfObj (GObj.tree es') = wfE es' from rfl] at hwfobj
        have hcda : createDirAll (dest ++ dir ++ [n]) fs =
            Except.ok (fs ++ [FsEntry.dir (dest ++ dir ++ [n])]) := by
          rw [createDirAll]
          have hnofile : ((nePrefixes (dest ++ dir ++ [n])).any fun q =>
              hasFileAt fs q) = false := by
            by_contra hc
            rw [Bool.not_eq_false, List.any_eq_true] at hc
            obtain ⟨q, hqmem, hqf⟩ := hc
            obtain ⟨cq, hcq⟩ := hasFileAt_iff.mp hqf
            rw [nePrefixes_concat] at hqmem
            rcases List.mem_append.mp hqmem with h1 | h2
            · exact hnof q cq hcq (prefix_of_mem_nePrefixes h1)
            · rw [List.mem_singleton] at h2
              subst h2
              refine hfresh n hheadname _ hcq ?_
              simp only [pathOfE]
              exact List.prefix_refl _
          rw [hnofile]
          simp only [Bool.false_eq_true, if_false]
          congr 1
          rw [nePrefixes_concat, List.filterMap_append]
          have h1 : ((nePrefixes (dest ++ dir)).filterMap fun q =>
              if hasDir fs q then none else some (FsEntry.dir q)) = [] := by
            apply List.filterMap_eq_nil_iff.mpr
            intro q hq
            rw [hpre q hq]
            rfl
          rw [h1]
          simp only [List.nil_append, List.filterMap_cons, List.filterMap_nil, hnotdir,
            Bool.false_eq_true, if_false]
        have ih1 := runWalk_preorder_eq dest (dir ++ [n]) es'
            (fs ++ [FsEntry.dir (dest ++ dir ++ [n])]) hdest hwfobj
            (by
              intro q hq
              rw [← List.append_assoc, nePrefixes_concat] at hq
              rcases List.mem_append.mp hq with h1 | h2
              · rw [hasDir_append, hpre q h1, Bool.true_or]
              · rw [List.mem_singleton] at h2
                subst h2
                rw [hasDir_append]
                have hnew : hasDir [FsEntry.dir (dest ++ dir ++ [n])]
                    (dest ++ dir ++ [n]) = true := by
                  simp [hasDir]
                rw [hnew, Bool.or_true])
            (by
              intro p c' hmem
              rcases List.mem_append.mp hmem with h1 | h2
              · intro hp
                rw [← List.append_assoc] at hp
                rcases prefix_concat_cases hp with hq | hq
                · exact hnof p c' h1 hq
                · subst hq
                  refine hfresh n hheadname _ h1 ?_
                  simp only [pathOfE]
                  exact List.prefix_refl _
              · rw [List.mem_singleton] at h2
                exact absurd h2 (by simp))
            (by
              intro m hm e he
              rcases List.mem_append.mp he with h1 | h2
              · intro hp
                rw [← List.append_assoc] at hp
                have hpn : dest ++ dir ++ [n] <+: pathOfE e :=
                  List.IsPrefix.trans ⟨[m], rfl⟩ hp
                exact hfresh n hheadname e h1 hpn
              · rw [List.mem_singleton] at h2
                subst h2
                simp only [pathOfE]
                intro hp
                have hlen := hp.length_le
                simp only [List.length_append, List.length_cons,
                  List.length_nil] at hlen
                omega)
        have ih2 := runWalk_preorder_eq dest dir rest
            ((fs ++ [FsEntry.dir (dest ++ dir ++ [n])]) ++
              (treeEntriesE es').map (prependPath (dest ++ (dir ++ [n])))) hdest hwfrest
            (by
              intro q hq
              rw [hasDir_append, hasDir_append, hpre q hq, Bool.true_or, Bool.true_or])
            (by
              intro p c' hmem
              rcases List.mem_append.mp hmem with h1 | h2
              · rcases List.mem_append.mp h1 with h1a | h1b
                · exact hnof p c' h1a
                · rw [List.mem_singleton] at h1b
                  exact absurd h1b (by simp)
              · obtain ⟨e0, _, he0⟩ := List.mem_map.mp h2
                intro hp
                have hpe : pathOfE (FsEntry.file p c') =
                    (dest ++ (dir ++ [n])) ++ pathOfE e0 := by
                  rw [← he0, pathOfE_prependPath]
                simp only [pathOfE] at hpe
                have hpref : dest ++ (dir ++ [n]) <+: p := by
                  rw [hpe]; exact ⟨pathOfE e0, rfl⟩
                have htr := hpref.trans hp
                have hlen := htr.length_le
                simp only [List.length_append, List.length_cons,
                  List.length_nil] at hlen
                omega)
            (by
              intro m hm e he
              rcases List.mem_append.mp he with h1 | h2
              · rcases List.mem_append.mp h1 with h1a | h1b
                · exact hfresh m (htailname m hm) e h1a
                · rw [List.mem_singleton] at h1b
                  subst h1b
                  simp only [pathOfE]
                  intro hp
                  exact (hdistinct (some m) hm) (by rw [concat_prefix_append hp])
              · obtain ⟨e0, _, he0⟩ := List.mem_map.mp h2
                subst he0
                rw [pathOfE_prependPath]
                intro hp
                rw [← List.append_assoc dest dir [n],
                  List.append_assoc (dest ++ dir) [n] (pathOfE e0),
                  List.singleton_append] at hp
                exact (hdistinct (some m) hm) (by rw [concat_prefix_append hp]))
        simp only [preorderE, childItems, kindOf, runWalk, stepEntry, hcda]
        rw [runWalk_append]
        simp only [ih1, ih2]
        have hmapmap : ∀ T : List FsEntry,
            (T.map (prependPath [n])).map (prependPath (dest ++ dir)) =
              T.map (prependPath (dest ++ dir ++ [n])) := by
          intro T
          rw [List.map_map]
          refine List.map_congr_left fun e _ => ?_
          simp [Function.comp, prependPath_prependPath]
        simp only [treeEntriesE, entryContent, List.map_append, List.map_cons,
          prependPath, hmapmap, List.append_assoc, List.cons_append, List.nil_append,
          List.singleton_append]
termination_by sizeOf es

/-! ### Claim C4: tree extraction is exact -/

/-- C4: for every revision/path pair whose resolved object is a tree (a
well-formed tree of UTF-8-named blobs and sub-trees — entries that are
neither blob nor tree are excluded by `wfE`, matching the spec's "silently
skipped" clause), extraction into an existing destination directory with
nothing already beneath it succeeds and produces under the destination a
tree structurally and byte-for-byte identical to the source subtree: the
same relative paths (`treeEntriesE es`), the same file contents, no extra
entries and no omitted entries. -/
theorem c4_extract_tree_exact (es : GEntries) (nm : Option String)
    (dest : List String) (fs : FS)
    (hdest : dest ≠ [])
    (hwf : wfE es = true)
    (hready : ((nePrefixes dest).all fun q => hasDir fs q) = true)
    (hnof : (fs.all fun e => match e with
      | FsEntry.file q _ => !(q.isPrefixOf dest)
      | FsEntry.dir _ => true) = true)
    (hfresh : ((namesE es).all fun m? => match m? with
      | some m => fs.all fun e => !((dest ++ [m]).isPrefixOf (pathOfE e))
      | none => true) = true) :
    extract (GObj.tree es) nm dest fs =
      (fs ++ (treeEntriesE es).map (prependPath dest), none) := by
  rw [List.all_eq_true] at hready hnof hfresh
  have hpre : ∀ q ∈ nePrefixes (dest ++ []), hasDir fs q = true := by
    rw [List.append_nil]
    exact hready
  have hnof' : ∀ p c, FsEntry.file p c ∈ fs → ¬ (p <+: dest ++ []) := by
    rw [List.append_nil]
    intro p c hmem hp
    have h1 := hnof _ hmem
    rw [← List.isPrefixOf_iff_prefix] at hp
    simp only [hp] at h1
    exact absurd h1 (by simp)
  have hfresh' : ∀ m, some m ∈ namesE es →
      ∀ e ∈ fs, ¬ (dest ++ [] ++ [m] <+: pathOfE e) := by
    rw [List.append_nil]
    intro m hm e he hp
    have h1 := hfresh _ hm
    simp only at h1
    rw [List.all_eq_true] at h1
    have h2 := h1 e he
    rw [← List.isPrefixOf_iff_prefix] at hp
    simp only [hp] at h2
    exact absurd h2 (by simp)
  have h := runWalk_preorder_eq dest [] es fs hdest hwf hpre hnof' hfresh'
  rw [List.append_nil] at h
  exact h

/-- Witness for C4 at a concrete two-level tree. -/
theorem c4_witness :
    wfE (GEntries.cons (some "a") (GObj.blob [1])
      (GEntries.cons (some "d")
        (GObj.tree (GEntries.cons (some "b") (GObj.blob [2]) GEntries.nil))
        GEntries.nil)) = true ∧
    extract
      (GObj.tree (GEntries.cons (some "a") (GObj.blob [1])
        (GEntries.cons (some "d")
          (GObj.tree (GEntries.cons (some "b") (GObj.blob [2]) GEntries.nil))
          GEntries.nil)))
      (some "x") ["dst"] [FsEntry.dir ["dst"]] =
      ([FsEntry.dir ["dst"]] ++
        (treeEntriesE (GEntries.cons (some "a") (GObj.blob [1])
          (GEntries.cons (some "d")
            (GObj.tree (GEntries.cons (some "b") (GObj.blob [2]) GEntries.nil))
            GEntries.nil))).map (prependPath ["dst"]), none) :=
  ⟨by decide,
    c4_extract_tree_exact _ (some "x") ["dst"] [FsEntry.dir ["dst"]]
      (by decide) (by decide) (by decide) (by decide) (by decide)⟩

/-! ### Claim C5: extraction is fail-fast and not transactional -/

/-- C5: during a tree extraction, the first visited entry that produces an
error aborts the remaining traversal (`post` is never processed), that
error is the one returned to the caller, and every entry already written
before the abort remains on disk: the returned filesystem is exactly
`fs1`, the state after the successful prefix of the walk. -/
theorem c5_fail_fast (es : GEntries) (nm : Option String) (dest : List String)
    (fs fs1 : FS) (pre post : List WalkItem) (bad : WalkItem) (e : ExtractErr)
    (hsplit : preorderE [] es = pre ++ bad :: post)
    (hpre : runWalk dest pre fs = (fs1, none))
    (hbad : stepEntry dest fs1 bad = Except.error e) :
    extract (GObj.tree es) nm dest fs = (fs1, some e) := by
  show runWalk dest (preorderE [] es) fs = (fs1, some e)
  rw [hsplit, runWalk_append]
  simp only [hpre, runWalk, hbad]

/-- Witness for C5: the second of three entries has a non-UTF-8 name; the
first entry's file stays on disk and the third is never written. -/
theorem c5_witness :
    preorderE []
        (GEntries.cons (some "a") (GObj.blob [1])
          (GEntries.cons none (GObj.blob [2])
            (GEntries.cons (some "c") (GObj.blob [3]) GEntries.nil))) =
      [([], some "a", WKind.wblob [1])] ++
        ([], none, WKind.wblob [2]) :: [([], some "c", WKind.wblob [3])] ∧
    runWalk ["d"] [([], some "a", WKind.wblob [1])] [FsEntry.dir ["d"]] =
      ([FsEntry.dir ["d"], FsEntry.file ["d", "a"] [1]], none) ∧
    stepEntry ["d"] [FsEntry.dir ["d"], FsEntry.file ["d", "a"] [1]]
        ([], none, WKind.wblob [2]) = Except.error ExtractErr.nonUtf8 ∧
    extract
        (GObj.tree (GEntries.cons (some "a") (GObj.blob [1])
          (GEntries.cons none (GObj.blob [2])
            (GEntries.cons (some "c") (GObj.blob [3]) GEntries.nil))))
        (some "x") ["d"] [FsEntry.dir ["d"]] =
      ([FsEntry.dir ["d"], FsEntry.file ["d", "a"] [1]], some ExtractErr.nonUtf8) :=
  ⟨rfl, rfl, rfl,
    c5_fail_fast
      (GEntries.cons (some "a") (GObj.blob [1])
        (GEntries.cons none (GObj.blob [2])
          (GEntries.cons (some "c") (GObj.blob [3]) GEntries.nil)))
      (some "x") ["d"] [FsEntry.dir ["d"]]
      [FsEntry.dir ["d"], FsEntry.file ["d", "a"] [1]]
      [([], some "a", WKind.wblob [1])] [([], some "c", WKind.wblob [3])]
      ([], none, WKind.wblob [2]) ExtractErr.nonUtf8 rfl rfl rfl⟩

/-! ### Claim C8: extract and a missing destination directory -/

/-- C8 counterexample: the claim says every extraction whose destination
directory does not yet exist fails with an I/O error; but when the first
visited entry of the extracted subtree is a sub-tree, `create_dir_all`
creates the destination itself as a parent and the extraction succeeds on
a filesystem where the destination did not exist. -/
theorem c8_counterexample :
    hasDir ([] : FS) ["dst"] = false ∧
    extract (GObj.tree (GEntries.cons (some "d") (GObj.tree GEntries.nil) GEntries.nil))
        (some "x") ["dst"] [] =
      ([FsEntry.dir ["dst"], FsEntry.dir ["dst", "d"]], none) :=
  ⟨rfl, by decide⟩

/-- C8 amended: extract never creates the destination directory for blob
writes — a single-blob extraction, and a tree extraction whose first
visited entry is a blob, fail with an I/O error when the destination does
not exist — but `create_dir_all` for a sub-tree entry creates the
destination (and its parents) as a side effect, so a tree extraction whose
first entry is a sub-tree can succeed without a pre-existing destination. -/
theorem c8_amended_dest_creation (dest : List String) (fs : FS) (c : List Nat)
    (hne : dest ≠ []) (hnd : hasDir fs dest = false) :
    (∀ n, extract (GObj.blob c) (some n) dest fs =
      (fs, some (ExtractErr.io (dest ++ [n])))) ∧
    (∀ es n rest nm, preorderE [] es = ([], some n, WKind.wblob c) :: rest →
      extract (GObj.tree es) nm dest fs =
        (fs, some (ExtractErr.io (dest ++ [n])))) := by
  have hie : dest.isEmpty = false := by
    cases dest with
    | nil => exact absurd rfl hne
    | cons a l => rfl
  constructor
  · intro n
    simp only [extract, fsWrite, List.dropLast_concat, hie, hnd]
    simp
  · intro es n rest nm hsplit
    show runWalk dest (preorderE [] es) fs = (fs, some (ExtractErr.io (dest ++ [n])))
    rw [hsplit]
    simp only [runWalk, stepEntry, List.append_nil, fsWrite, List.dropLast_concat,
      hie, hnd]
    simp

/-- Witness for the amended C8 theorem. -/
theorem c8_witness :
    (["dst"] : List String) ≠ [] ∧
    hasDir ([FsEntry.dir ["other"]] : FS) ["dst"] = false ∧
    extract (GObj.blob [7]) (some "f") ["dst"] [FsEntry.dir ["other"]] =
      ([FsEntry.dir ["other"]], some (ExtractErr.io ["dst", "f"])) ∧
    extract (GObj.tree (GEntries.cons (some "g") (GObj.blob [7]) GEntries.nil))
        (some "x") ["dst"] [FsEntry.dir ["other"]] =
      ([FsEntry.dir ["other"]], some (ExtractErr.io ["dst", "g"])) := by
  refine ⟨by decide, by decide, ?_, ?_⟩
  · exact (c8_amended_dest_creation ["dst"] [FsEntry.dir ["other"]] [7]
      (by decide) (by decide)).1 "f"
  · exact (c8_amended_dest_creation ["dst"] [FsEntry.dir ["other"]] [7]
      (by decide) (by decide)).2
      (GEntries.cons (some "g") (GObj.blob [7]) GEntries.nil) "g" [] (some "x") rfl

/-! ### The `.gitcopies` provenance store (`App::register`, `App::get`, `App::list`) -/

/-- The key/value configuration file, as the ordered entry list
`git2::Config` reads and writes. -/
abbrev Config := List (String × String)

/-- Errors of the configuration reads: a missing key, or a path that is not
representable as UTF-8 ("path must be valid utf-8"). -/
inductive CfgErr where
  | notFound : String → CfgErr
  | notUtf8 : CfgErr
deriving DecidableEq, Repr

/-- The error of `path_to_string`. -/
inductive RegErr where
  | notUtf8 : RegErr
deriving DecidableEq, Repr

/-- Model of `path_to_string(path)`: a path either is representable as
UTF-8 text (`some s`) or is not (`none`); the conversion fails with the
"path must be valid utf-8" error exactly in the latter case. -/
def path_to_string : Option String → Except RegErr String
  | some s => Except.ok s
  | none => Except.error RegErr.notUtf8

/-- Model of `git2::Config::set_str`: replace any entry with the same key
and record the new value. -/
def setStr (cfg : Config) (k v : String) : Config :=
  (cfg.filter fun e => decide (e.1 ≠ k)) ++ [(k, v)]

/-- Model of `git2::Config::get_string` on a snapshot: the value of the
entry with the given key. -/
def getString (cfg : Config) (k : String) : Except CfgErr String :=
  match cfg.find? fun e => decide (e.1 = k) with
  | some e => Except.ok e.2
  | none => Except.error (CfgErr.notFound k)

/-- Model of `App::register` after canonicalization: `relative` is the
destination path relative to the repository workdir as `path_to_string`
sees it, `source` the upstream source path. The write order mirrors the
code: the `url` and `rev` keys are written before `path_to_string` is
applied to the source path, because that conversion happens inside the
argument of the third `set_str` call. The configuration as written so far
is returned together with the error, if any. -/
def register (relative source : Option String) (url rev : String) (cfg : Config) :
    Config × Option RegErr :=
  match relative with
  | none => (cfg, some RegErr.notUtf8)
  | some rs =>
    let cfg1 := setStr cfg ("subcopy." ++ rs ++ ".url") url
    let cfg2 := setStr cfg1 ("subcopy." ++ rs ++ ".rev") rev
    match source with
    | none => (cfg2, some RegErr.notUtf8)
    | some ss => (setStr cfg2 ("subcopy." ++ rs ++ ".sourcePath") ss, none)

/-- The complete provenance record `App::get` returns. -/
structure SubcopyConfig where
  url : String
  rev : String
  source_path : String
deriving DecidableEq, Repr

/-- Model of `App::get` after canonicalization: read the three fields
`url`, `rev`, `sourcePath` under `subcopy.<relative-path>.<field>`,
failing on the first missing one. -/
def get (key : Option String) (cfg : Config) : Except CfgErr SubcopyConfig :=
  match key with
  | none => Except.error CfgErr.notUtf8
  | some ks => do
    let url ← getString cfg ("subcopy." ++ ks ++ ".url")
    let rev ← getString cfg ("subcopy." ++ ks ++ ".rev")
    let sp ← getString cfg ("subcopy." ++ ks ++ ".sourcePath")
    return { url := url, rev := rev, source_path := sp }

/-- One alternative of the regex `^subcopy\..*\.(url|rev|sourcePath)$`
used by `App::list` to select configuration entries: the key starts with
`subcopy.`, ends with the field suffix, and is long enough that the two
do not overlap (`.*` matches the, possibly empty, middle). -/
def matchesField (k fieldSuffix : String) : Bool :=
  "subcopy.".data.isPrefixOf k.data && fieldSuffix.data.isSuffixOf k.data &&
    decide (8 + fieldSuffix.data.length ≤ k.data.length)

/-- The full selection regex of `App::list`. -/
def entryPattern (k : String) : Bool :=
  matchesField k ".url" || matchesField k ".rev" || matchesField k ".sourcePath"

/-- Everything after the first `.`: the `splitn(2, '.').nth(1)` step of
`App::list`'s key parsing. -/
def afterFirstDot : List Char → Option (List Char)
  | [] => none
  | c :: rest => if c = '.' then some rest else afterFirstDot rest

/-- Everything before the last `.`: the `rsplitn(2, '.').nth(1)` step of
`App::list`'s key parsing. -/
def beforeLastDot (l : List Char) : Option (List Char) :=
  (afterFirstDot l.reverse).map List.reverse

/-- The `<relative-path>` component `App::list` recovers from a key:
first drop the trailing `.<field>` (split from the right at the last dot),
then drop the leading `subcopy.` (split from the left at the first dot). -/
def middleOf (k : String) : Option (List Char) :=
  (beforeLastDot k.data).bind afterFirstDot

theorem data_append (a b : String) : (a ++ b).data = a.data ++ b.data := by
  cases a; cases b; rfl

theorem append_ne_of_data_ne (s : String) {a b : String} (h : a.data ≠ b.data) :
    s ++ a ≠ s ++ b := by
  intro he
  apply h
  have hd := congrArg String.data he
  rw [data_append, data_append] at hd
  exact List.append_cancel_left hd

theorem key_url_ne_rev (s : String) :
    "subcopy." ++ s ++ ".url" ≠ "subcopy." ++ s ++ ".rev" :=
  append_ne_of_data_ne _ (by decide)

theorem key_url_ne_sp (s : String) :
    "subcopy." ++ s ++ ".url" ≠ "subcopy." ++ s ++ ".sourcePath" :=
  append_ne_of_data_ne _ (by decide)

theorem key_rev_ne_sp (s : String) :
    "subcopy." ++ s ++ ".rev" ≠ "subcopy." ++ s ++ ".sourcePath" :=
  append_ne_of_data_ne _ (by decide)

theorem find?_append_cfg {α : Type} (p : α → Bool) (l₁ l₂ : List α) :
    (l₁ ++ l₂).find? p =
      match l₁.find? p with
      | some x => some x
      | none => l₂.find? p := by
  induction l₁ with
  | nil => simp [List.find?]
  | cons a l ih =>
    simp only [List.cons_append, List.find?]
    cases p a <;> simp [ih]

theorem find?_filter_of_imp {α : Type} (p q : α → Bool) (l : List α)
    (h : ∀ x, p x = true → q x = true) :
    (l.filter q).find? p = l.find? p := by
  induction l with
  | nil => rfl
  | cons a l ih =>
    by_cases hqa : q a = true
    · rw [List.filter_cons_of_pos hqa]
      simp only [List.find?]
      cases hpa : p a <;> simp [hpa, ih]
    · rw [List.filter_cons_of_neg (by simpa using hqa)]
      have hpa : p a = false := by
        by_contra hc
        rw [Bool.not_eq_false] at hc
        exact hqa (h a hc)
      simp only [List.find?, hpa]
      exact ih

theorem getString_setStr_self (cfg : Config) (k v : String) :
    getString (setStr cfg k v) k = Except.ok v := by
  rw [getString, setStr, find?_append_cfg]
  have h1 : (cfg.filter fun e => decide (e.1 ≠ k)).find?
      (fun e => decide (e.1 = k)) = none := by
    rw [List.find?_eq_none]
    intro x hx
    rw [List.mem_filter] at hx
    simp only [decide_eq_true_eq] at hx ⊢
    exact hx.2
  rw [h1]
  simp [List.find?]

theorem getString_setStr_ne (cfg : Config) (k k' v : String) (h : k' ≠ k) :
    getString (setStr cfg k v) k' = getString cfg k' := by
  rw [getString, getString, setStr, find?_append_cfg]
  have hfilter : (cfg.filter fun e => decide (e.1 ≠ k)).find?
      (fun e => decide (e.1 = k')) = cfg.find? fun e => decide (e.1 = k') := by
    apply find?_filter_of_imp
    intro x hx
    simp only [decide_eq_true_eq] at hx ⊢
    rw [hx]
    exact h
  rw [hfilter]
  cases cfg.find? fun e => decide (e.1 = k') with
  | some e => rfl
  | none =>
    have hlast : (([(k, v)] : Config).find? fun e => decide (e.1 = k')) = none := by
      simp [List.find?, Ne.symm h]
    rw [hlast]

theorem register_get_ok (s ss url rev : String) (cfg : Config) :
    get (some s) (register (some s) (some ss) url rev cfg).1 =
      Except.ok { url := url, rev := rev, source_path := ss } := by
  have h1 : getString (register (some s) (some ss) url rev cfg).1
      ("subcopy." ++ s ++ ".url") = Except.ok url := by
    show getString (setStr (setStr (setStr cfg ("subcopy." ++ s ++ ".url") url)
      ("subcopy." ++ s ++ ".rev") rev) ("subcopy." ++ s ++ ".sourcePath") ss) _ = _
    rw [getString_setStr_ne _ _ _ _ (key_url_ne_sp s),
      getString_setStr_ne _ _ _ _ (key_url_ne_rev s),
      getString_setStr_self]
  have h2 : getString (register (some s) (some ss) url rev cfg).1
      ("subcopy." ++ s ++ ".rev") = Except.ok rev := by
    show getString (setStr (setStr (setStr cfg ("subcopy." ++ s ++ ".url") url)
      ("subcopy." ++ s ++ ".rev") rev) ("subcopy." ++ s ++ ".sourcePath") ss) _ = _
    rw [getString_setStr_ne _ _ _ _ (key_rev_ne_sp s), getString_setStr_self]
  have h3 : getString (register (some s) (some ss) url rev cfg).1
      ("subcopy." ++ s ++ ".sourcePath") = Except.ok ss := by
    show getString (setStr (setStr (setStr cfg ("subcopy." ++ s ++ ".url") url)
      ("subcopy." ++ s ++ ".rev") rev) ("subcopy." ++ s ++ ".sourcePath") ss) _ = _
    rw [getString_setStr_self]
  simp only [get, h1, h2, h3]
  rfl

/-! ### Claim C6: register followed by get round-trips -/

/-- C6: after registering `(url, rev, sourcePath)` for a destination path
that canonicalizes inside the repository working directory (modelled: the
relative path is UTF-8 `some s`), `get` on the same destination path
returns exactly those three values, and `register` itself reports no
error. -/
theorem c6_register_get_roundtrip (s ss url rev : String) (cfg : Config) :
    (register (some s) (some ss) url rev cfg).2 = none ∧
    get (some s) (register (some s) (some ss) url rev cfg).1 =
      Except.ok { url := url, rev := rev, source_path := ss } :=
  ⟨rfl, register_get_ok s ss url rev cfg⟩

/-! ### Claim C10: register and non-UTF-8 paths -/

/-- C10 counterexample: the claim says no configuration key is written
whenever either path is non-UTF-8; but a non-UTF-8 source path fails only
after the `url` and `rev` keys have already been written. -/
theorem c10_counterexample :
    (register (some "p") none "u" "r" []).2 = some RegErr.notUtf8 ∧
    (register (some "p") none "u" "r" []).1 =
      [("subcopy.p.url", "u"), ("subcopy.p.rev", "r")] :=
  ⟨rfl, by decide⟩

/-- C10 amended: a non-UTF-8 relative destination path makes `register`
fail before any write; a non-UTF-8 source path makes it fail after the
`url` and `rev` keys are written and before the `sourcePath` key, which is
left exactly as it was. -/
theorem c10_amended_partial_write (src : Option String) (s url rev : String)
    (cfg : Config) :
    register none src url rev cfg = (cfg, some RegErr.notUtf8) ∧
    (register (some s) none url rev cfg).2 = some RegErr.notUtf8 ∧
    (register (some s) none url rev cfg).1 =
      setStr (setStr cfg ("subcopy." ++ s ++ ".url") url)
        ("subcopy." ++ s ++ ".rev") rev ∧
    getString (register (some s) none url rev cfg).1 ("subcopy." ++ s ++ ".url") =
      Except.ok url ∧
    getString (register (some s) none url rev cfg).1 ("subcopy." ++ s ++ ".rev") =
      Except.ok rev ∧
    getString (register (some s) none url rev cfg).1
        ("subcopy." ++ s ++ ".sourcePath") =
      getString cfg ("subcopy." ++ s ++ ".sourcePath") := by
  refine ⟨rfl, rfl, rfl, ?_, ?_, ?_⟩
  · show getString (setStr (setStr cfg ("subcopy." ++ s ++ ".url") url)
      ("subcopy." ++ s ++ ".rev") rev) _ = _
    rw [getString_setStr_ne _ _ _ _ (key_url_ne_rev s), getString_setStr_self]
  · show getString (setStr (setStr cfg ("subcopy." ++ s ++ ".url") url)
      ("subcopy." ++ s ++ ".rev") rev) _ = _
    rw [getString_setStr_self]
  · show getString (setStr (setStr cfg ("subcopy." ++ s ++ ".url") url)
      ("subcopy." ++ s ++ ".rev") rev) _ = _
    rw [getString_setStr_ne _ _ _ _ (key_rev_ne_sp s).symm,
      getString_setStr_ne _ _ _ _ (key_url_ne_sp s).symm]

/-! ### Key shape lemmas for Claim C3 -/

theorem afterFirstDot_append (l₁ l₂ : List Char)
    (h : (l₁.all fun c => decide (c ≠ '.')) = true) :
    afterFirstDot (l₁ ++ l₂) = afterFirstDot l₂ := by
  induction l₁ with
  | nil => rfl
  | cons a l ih =>
    rw [List.all_cons, Bool.and_eq_true, decide_eq_true_eq] at h
    simp only [List.cons_append, afterFirstDot, if_neg h.1]
    exact ih h.2

theorem afterFirstDot_dot (l : List Char) : afterFirstDot ('.' :: l) = some l := by
  simp [afterFirstDot]

theorem middleOf_data (pre mid suf : List Char)
    (hpre : (pre.all fun c => decide (c ≠ '.')) = true)
    (hsuf : (suf.all fun c => decide (c ≠ '.')) = true) :
    (beforeLastDot (pre ++ '.' :: (mid ++ '.' :: suf))).bind afterFirstDot =
      some mid := by
  rw [beforeLastDot]
  have hrev : (pre ++ '.' :: (mid ++ '.' :: suf)).reverse =
      suf.reverse ++ '.' :: (mid.reverse ++ '.' :: pre.reverse) := by
    simp [List.reverse_append, List.reverse_cons, List.append_assoc]
  rw [hrev, afterFirstDot_append _ _ (by rwa [List.all_reverse]), afterFirstDot_dot]
  have hback : (mid.reverse ++ '.' :: pre.reverse).reverse = pre ++ '.' :: mid := by
    simp [List.reverse_append, List.reverse_cons, List.append_assoc]
  show (some ((mid.reverse ++ '.' :: pre.reverse).reverse)).bind afterFirstDot =
    some mid
  rw [hback]
  show afterFirstDot (pre ++ '.' :: mid) = some mid
  rw [afterFirstDot_append _ _ hpre, afterFirstDot_dot]

theorem key_data_url (s : String) : ("subcopy." ++ s ++ ".url").data =
    "subcopy".data ++ '.' :: (s.data ++ '.' :: "url".data) := by
  rw [data_append, data_append]
  rw [show "subcopy.".data = "subcopy".data ++ ['.'] from by decide]
  rw [show ".url".data = '.' :: "url".data from by decide]
  simp [List.append_assoc]

theorem key_data_rev (s : String) : ("subcopy." ++ s ++ ".rev").data =
    "subcopy".data ++ '.' :: (s.data ++ '.' :: "rev".data) := by
  rw [data_append, data_append]
  rw [show "subcopy.".data = "subcopy".data ++ ['.'] from by decide]
  rw [show ".rev".data = '.' :: "rev".data from by decide]
  simp [List.append_assoc]

theorem key_data_sp (s : String) : ("subcopy." ++ s ++ ".sourcePath").data =
    "subcopy".data ++ '.' :: (s.data ++ '.' :: "sourcePath".data) := by
  rw [data_append, data_append]
  rw [show "subcopy.".data = "subcopy".data ++ ['.'] from by decide]
  rw [show ".sourcePath".data = '.' :: "sourcePath".data from by decide]
  simp [List.append_assoc]

theorem middleOf_key_url (s : String) :
    middleOf ("subcopy." ++ s ++ ".url") = some s.data := by
  show (beforeLastDot ("subcopy." ++ s ++ ".url").data).bind afterFirstDot = _
  rw [key_data_url]
  exact middleOf_data _ _ _ (by decide) (by decide)

theorem middleOf_key_rev (s : String) :
    middleOf ("subcopy." ++ s ++ ".rev") = some s.data := by
  show (beforeLastDot ("subcopy." ++ s ++ ".rev").data).bind afterFirstDot = _
  rw [key_data_rev]
  exact middleOf_data _ _ _ (by decide) (by decide)

theorem middleOf_key_sp (s : String) :
    middleOf ("subcopy." ++ s ++ ".sourcePath") = some s.data := by
  show (beforeLastDot ("subcopy." ++ s ++ ".sourcePath").data).bind afterFirstDot = _
  rw [key_data_sp]
  exact middleOf_data _ _ _ (by decide) (by decide)

theorem matchesField_key (s fs : String) :
    matchesField ("subcopy." ++ s ++ fs) fs = true := by
  rw [matchesField]
  have hp : "subcopy.".data.isPrefixOf ("subcopy." ++ s ++ fs).data = true := by
    rw [List.isPrefixOf_iff_prefix, data_append, data_append, List.append_assoc]
    exact List.prefix_append _ _
  have hs : fs.data.isSuffixOf ("subcopy." ++ s ++ fs).data = true := by
    rw [List.isSuffixOf_iff_suffix, data_append]
    exact List.suffix_append _ _
  rw [hp, hs]
  simp only [Bool.true_and, decide_eq_true_eq, data_append, List.length_append]
  rw [show "subcopy.".data.length = 8 from by decide]
  omega

/-! ### Claim C3: the persisted field names -/

/-- C3 counterexample: the three keys `register` writes end in `url`,
`rev` and `sourcePath` — not `upstreamPath` as the claim states — and the
selection pattern of `list` likewise accepts `sourcePath` and rejects
`upstreamPath`. -/
theorem c3_counterexample :
    ((register (some "vendor/util") (some "lib/util") "u" "r" []).1.map Prod.fst =
      ["subcopy.vendor/util.url", "subcopy.vendor/util.rev",
        "subcopy.vendor/util.sourcePath"]) ∧
    "subcopy.vendor/util.upstreamPath" ∉
      ((register (some "vendor/util") (some "lib/util") "u" "r" []).1.map Prod.fst) ∧
    entryPattern "subcopy.vendor/util.upstreamPath" = false ∧
    entryPattern "subcopy.vendor/util.sourcePath" = true :=
  ⟨by decide, by decide, by decide, by decide⟩

/-- C3 amended: every provenance record is persisted by `register` under
the three dot-delimited keys `subcopy.<relative-path>.<field>` with
`<field>` ranging exactly over `url`, `rev` and `sourcePath`; `get` reads
back those same three field suffixes, and the selection pattern plus key
parsing of `list` accept each of the three keys and recover the relative
path from them. -/
theorem c3_amended_field_names (s ss url rev : String) (cfg : Config) :
    (register (some s) (some ss) url rev cfg).1 =
      setStr (setStr (setStr cfg ("subcopy." ++ s ++ ".url") url)
        ("subcopy." ++ s ++ ".rev") rev) ("subcopy." ++ s ++ ".sourcePath") ss ∧
    get (some s) (register (some s) (some ss) url rev cfg).1 =
      Except.ok { url := url, rev := rev, source_path := ss } ∧
    entryPattern ("subcopy." ++ s ++ ".url") = true ∧
    entryPattern ("subcopy." ++ s ++ ".rev") = true ∧
    entryPattern ("subcopy." ++ s ++ ".sourcePath") = true ∧
    middleOf ("subcopy." ++ s ++ ".url") = some s.data ∧
    middleOf ("subcopy." ++ s ++ ".rev") = some s.data ∧
    middleOf ("subcopy." ++ s ++ ".sourcePath") = some s.data := by
  refine ⟨rfl, register_get_ok s ss url rev cfg, ?_, ?_, ?_,
    middleOf_key_url s, middleOf_key_rev s, middleOf_key_sp s⟩
  · simp [entryPattern, matchesField_key]
  · simp [entryPattern, matchesField_key]
  · simp [entryPattern, matchesField_key]

/-! ### The mirror cache (`App::fetch`): URL-safe, padding-free base64 -/

/-- The URL-safe base64 alphabet (`base64::URL_SAFE_NO_PAD`). -/
def b64alphabet : List Char :=
  "ABCDEFGHIJKLMNOPQRSTUVWXYZabcdefghijklmnopqrstuvwxyz0123456789-_".data

/-- The alphabet character for a 6-bit value. -/
def b64char (n : Nat) : Char := b64alphabet.getD n 'A'

/-- The 6-bit groups of the base64 encoding of a byte sequence, without
padding: 3 bytes become 4 values, a 2-byte remainder 3 values, a 1-byte
remainder 2 values. -/
def b64chunks : List Nat → List Nat
  | a :: b :: c :: rest =>
    a / 4 :: ((a % 4) * 16 + b / 16) :: ((b % 16) * 4 + c / 64) :: c % 64 ::
      b64chunks rest
  | [a, b] => [a / 4, (a % 4) * 16 + b / 16, (b % 16) * 4]
  | [a] => [a / 4, (a % 4) * 16]
  | [] => []

/-- The inverse of `b64chunks`, for the injectivity proof. -/
def b64dechunks : List Nat → List Nat
  | w :: x :: y :: z :: rest =>
    (w * 4 + x / 16) :: ((x % 16) * 16 + y / 4) :: ((y % 4) * 64 + z) ::
      b64dechunks rest
  | [w, x, y] => [w * 4 + x / 16, (x % 16) * 16 + y / 4]
  | [w, x] => [w * 4 + x / 16]
  | _ => []

theorem b64dechunks_b64chunks : ∀ l : List Nat, (∀ b ∈ l, b < 256) →
    b64dechunks (b64chunks l) = l
  | [], _ => rfl
  | [a], h => by
    have ha : a < 256 := h a (by simp)
    simp only [b64chunks, b64dechunks]
    congr 1
    omega
  | [a, b], h => by
    have ha : a < 256 := h a (by simp)
    have hb : b < 256 := h b (by simp)
    simp only [b64chunks, b64dechunks]
    congr 1
    · omega
    · congr 1
      omega
  | a :: b :: c :: rest, h => by
    have ha : a < 256 := h a (by simp)
    have hb : b < 256 := h b (by simp)
    have hc : c < 256 := h c (by simp)
    have hrest := b64dechunks_b64chunks rest fun x hx => h x (by simp [hx])
    simp only [b64chunks, b64dechunks]
    rw [hrest]
    congr 1
    · omega
    · congr 1
      · omega
      · congr 1
        omega

theorem b64chunks_lt : ∀ l : List Nat, (∀ b ∈ l, b < 256) →
    ∀ v ∈ b64chunks l, v < 64
  | [], _ => by simp [b64chunks]
  | [a], h => by
    have ha : a < 256 := h a (by simp)
    simp only [b64chunks, List.mem_cons, List.not_mem_nil, or_false]
    rintro v (rfl | rfl) <;> omega
  | [a, b], h => by
    have ha : a < 256 := h a (by simp)
    have hb : b < 256 := h b (by simp)
    simp only [b64chunks, List.mem_cons, List.not_mem_nil, or_false]
    rintro v (rfl | rfl | rfl) <;> omega
  | a :: b :: c :: rest, h => by
    have ha : a < 256 := h a (by simp)
    have hb : b < 256 := h b (by simp)
    have hc : c < 256 := h c (by simp)
    have hrest := b64chunks_lt rest fun x hx => h x (by simp [hx])
    simp only [b64chunks, List.mem_cons]
    rintro v (rfl | rfl | rfl | rfl | hv)
    · omega
    · omega
    · omega
    · omega
    · exact hrest v hv

theorem b64char_inj : ∀ a < 64, ∀ b < 64, b64char a = b64char b → a = b := by
  decide

theorem map_b64char_inj : ∀ l₁ l₂ : List Nat, (∀ v ∈ l₁, v < 64) →
    (∀ v ∈ l₂, v < 64) → l₁.map b64char = l₂.map b64char → l₁ = l₂
  | [], [], _, _, _ => rfl
  | [], _ :: _, _, _, h => by simp at h
  | _ :: _, [], _, _, h => by simp at h
  | a :: l₁, b :: l₂, h₁, h₂, h => by
    simp only [List.map_cons, List.cons.injEq] at h
    have ha : a = b := b64char_inj a (h₁ a (by simp)) b (h₂ b (by simp)) h.1
    have hl := map_b64char_inj l₁ l₂ (fun v hv => h₁ v (by simp [hv]))
      (fun v hv => h₂ v (by simp [hv])) h.2
    rw [ha, hl]

/-- The cache-local mirror directory name `App::fetch` derives from a URL's
byte sequence: `base64::encode_config(url, base64::URL_SAFE_NO_PAD)`. -/
def mirrorPath (url : List Nat) : List Char := (b64chunks url).map b64char

/-- What `App::fetch` does with the mirror at the derived path. -/
inductive FetchAction where
  | openAndFetch : List Char → FetchAction
  | cloneBare : List Char → FetchAction
deriving DecidableEq, Repr

/-- Model of `App::fetch`'s cache handling: if the derived path exists in
the cache, open the bare repository there and update it with an anonymous
fetch; otherwise perform a full bare clone into that path. -/
def fetch (cache : List (List Char)) (url : List Nat) : FetchAction :=
  if mirrorPath url ∈ cache then FetchAction.openAndFetch (mirrorPath url)
  else FetchAction.cloneBare (mirrorPath url)

/-! ### Claim C7: deterministic, injective mirror paths; fetch vs clone -/

/-- C7: the mirror's cache-local name is derived deterministically and
injectively from the URL's byte string (distinct URL strings get distinct
mirrors), an existing mirror is opened and updated by an anonymous fetch
rather than re-cloned, and only a missing mirror is bare-cloned. -/
theorem c7_fetch_mirror_cache :
    (∀ u₁ u₂ : List Nat, (∀ b ∈ u₁, b < 256) → (∀ b ∈ u₂, b < 256) →
      mirrorPath u₁ = mirrorPath u₂ → u₁ = u₂) ∧
    (∀ (cache : List (List Char)) (url : List Nat),
      (mirrorPath url ∈ cache →
        fetch cache url = FetchAction.openAndFetch (mirrorPath url)) ∧
      (mirrorPath url ∉ cache →
        fetch cache url = FetchAction.cloneBare (mirrorPath url))) := by
  constructor
  · intro u₁ u₂ h₁ h₂ h
    have hchunks := map_b64char_inj (b64chunks u₁) (b64chunks u₂)
      (b64chunks_lt u₁ h₁) (b64chunks_lt u₂ h₂) h
    have := congrArg b64dechunks hchunks
    rwa [b64dechunks_b64chunks u₁ h₁, b64dechunks_b64chunks u₂ h₂] at this
  · intro cache url
    constructor
    · intro hmem
      rw [fetch, if_pos hmem]
    · intro hmem
      rw [fetch, if_neg hmem]

/-- Witness for C7 at concrete URLs and caches. -/
theorem c7_witness :
    ([104, 97] : List Nat) = [104, 97] ∧
    fetch [] [104, 97] = FetchAction.cloneBare (mirrorPath [104, 97]) ∧
    fetch [mirrorPath [104, 97]] [104, 97] =
      FetchAction.openAndFetch (mirrorPath [104, 97]) := by
  refine ⟨?_, ?_, ?_⟩
  · exact c7_fetch_mirror_cache.1 [104, 97] [104, 97] (by decide) (by decide) rfl
  · exact (c7_fetch_mirror_cache.2 [] [104, 97]).2 (by decide)
  · exact (c7_fetch_mirror_cache.2 [mirrorPath [104, 97]] [104, 97]).1 (by simp)

/-! ### The sync session (`App::with_repo`) -/

/-- The error of the caller-supplied operation. -/
inductive CbErr where
  | opFailed : CbErr
deriving DecidableEq, Repr

/-- Whether a path has no component equal to `.git`. -/
def gitFreeP (p : List String) : Bool := p.all fun s => decide (s ≠ ".git")

/-- The copy-out walk filter of `with_repo`:
`filter_entry(|e| e.file_name().to_str() != Some(".git"))` prunes the
subtree below any entry named `.git`, so exactly the entries with no
`.git` component anywhere in their relative path are visited. -/
def gitFreeE (e : FsEntry) : Bool := gitFreeP (pathOfE e)

/-- The `fs::create_dir_all` call of the copy loops of `with_repo`
(entry.file_type().is_dir() branch); modelled as total because the walk
yields parents before children, so the call cannot fail there. -/
def addDirNF (p : List String) (fs : FS) : FS :=
  fs ++ (nePrefixes p).filterMap fun q =>
    if hasDir fs q then none else some (FsEntry.dir q)

/-- The `fs::copy(from, to)` call of the copy loops of `with_repo`:
overwrite the file at the target path. -/
def copyFileTo (p : List String) (c : List Nat) (fs : FS) : FS :=
  (fs.filter fun e => match e with
    | FsEntry.file q _ => decide (q ≠ p)
    | FsEntry.dir _ => true) ++ [FsEntry.file p c]

/-- One copy loop of `with_repo`: walk the source entries in order (the
`WalkDir` order), creating directories and copying files onto the
destination tree at the same relative paths. -/
def copyTreeE (src : List FsEntry) (dst : FS) : FS :=
  src.foldl (fun acc e => match e with
    | FsEntry.dir p => addDirNF p acc
    | FsEntry.file p c => copyFileTo p c acc) dst

/-- The scratch working tree after seeding and copy-in: the temp
repository contains its `.git` metadata directory and the pristine
extracted content (committing the index does not change the working
tree); the first copy loop then overlays the destination's entries onto
it, the walk's root entry first (a no-op `create_dir_all` on the temp
root). -/
def copyIn (pristine destE : FS) : FS :=
  copyTreeE (FsEntry.dir [] :: destE) (FsEntry.dir [".git"] :: pristine)

/-- Model of `App::with_repo` from the seeded scratch repository onward:
copy-in, run the callback on the scratch tree, and only on success run
the copy-out loop (whose walk yields the temp root first and skips every
entry with a `.git`-named component) onto the destination. Returns the
final destination tree, whether copy-out ran, and the callback's error if
any. -/
def withRepo (pristine destE : FS) (cb : FS → Except CbErr FS) :
    FS × Bool × Option CbErr :=
  match cb (copyIn pristine destE) with
  | Except.error e => (destE, false, some e)
  | Except.ok scratch2 =>
    (copyTreeE (FsEntry.dir [] :: scratch2.filter gitFreeE) destE, true, none)

/-! ### Lookup lemmas for the copy loops -/

theorem lookupFile_append (l₁ l₂ : FS) (p : List String) :
    lookupFile (l₁ ++ l₂) p =
      match lookupFile l₂ p with
      | some c => some c
      | none => lookupFile l₁ p := by
  induction l₁ with
  | nil =>
    simp only [List.nil_append]
    cases lookupFile l₂ p <;> simp [lookupFile]
  | cons e l ih =>
    cases e with
    | dir q => simpa [lookupFile] using ih
    | file q c =>
      simp only [List.cons_append]
      rw [show lookupFile (FsEntry.file q c :: (l ++ l₂)) p =
        (match lookupFile (l ++ l₂) p with
          | some c' => some c'
          | none => if q = p then some c else none) from rfl]
      rw [ih]
      rw [show lookupFile (FsEntry.file q c :: l) p =
        (match lookupFile l p with
          | some c' => some c'
          | none => if q = p then some c else none) from rfl]
      cases lookupFile l₂ p <;> cases lookupFile l p <;> simp

theorem lookupFile_of_no_file_at (l : FS) (p : List String)
    (h : ∀ c, FsEntry.file p c ∉ l) : lookupFile l p = none := by
  induction l with
  | nil => rfl
  | cons e l ih =>
    cases e with
    | dir q =>
      rw [show lookupFile (FsEntry.dir q :: l) p = lookupFile l p from rfl]
      exact ih fun c hc => h c (List.mem_cons_of_mem _ hc)
    | file q c =>
      have hq : q ≠ p := by
        intro hq
        subst hq
        exact h c (List.mem_cons_self _ _)
      rw [show lookupFile (FsEntry.file q c :: l) p =
        (match lookupFile l p with
          | some c' => some c'
          | none => if q = p then some c else none) from rfl]
      rw [ih fun c' hc => h c' (List.mem_cons_of_mem _ hc)]
      simp [hq]

theorem lookupFile_addDirNF (q : List String) (fs : FS) (p : List String) :
    lookupFile (addDirNF q fs) p = lookupFile fs p := by
  rw [addDirNF, lookupFile_append]
  have h : lookupFile ((nePrefixes q).filterMap fun q' =>
      if hasDir fs q' then none else some (FsEntry.dir q')) p = none := by
    apply lookupFile_of_no_file_at
    intro c hc
    obtain ⟨q', _, hq'⟩ := List.mem_filterMap.mp hc
    by_cases hd : hasDir fs q' = true
    · rw [if_pos hd] at hq'
      exact Option.noConfusion hq'
    · rw [if_neg hd] at hq'
      exact FsEntry.noConfusion (Option.some.inj hq')
  rw [h]

theorem lookupFile_copyFileTo (p' : List String) (c : List Nat) (fs : FS)
    (p : List String) :
    lookupFile (copyFileTo p' c fs) p =
      if p' = p then some c else lookupFile fs p := by
  rw [copyFileTo, lookupFile_append]
  have h1 : lookupFile [FsEntry.file p' c] p =
      if p' = p then some c else none := rfl
  rw [h1]
  by_cases hp : p' = p
  · simp [hp]
  · simp only [if_neg hp]
    induction fs with
    | nil => rfl
    | cons e l ih =>
      cases e with
      | dir q =>
        rw [List.filter_cons_of_pos rfl]
        rw [show lookupFile (FsEntry.dir q :: List.filter _ l) p =
          lookupFile (List.filter _ l) p from rfl]
        rw [show lookupFile (FsEntry.dir q :: l) p = lookupFile l p from rfl]
        exact ih
      | file q c' =>
        by_cases hq : q = p'
        · subst hq
          rw [List.filter_cons_of_neg (by simp)]
          rw [show lookupFile (FsEntry.file q c' :: l) p =
            (match lookupFile l p with
              | some c'' => some c''
              | none => if q = p then some c' else none) from rfl]
          rw [← ih]
          have hqp : q ≠ p := fun h => hp (h ▸ rfl)
          cases lookupFile (List.filter _ l) p <;> simp [hqp]
        · rw [List.filter_cons_of_pos (by simpa using hq)]
          rw [show lookupFile (FsEntry.file q c' :: List.filter _ l) p =
            (match lookupFile (List.filter _ l) p with
              | some c'' => some c''
              | none => if q = p then some c' else none) from rfl]
          rw [show lookupFile (FsEntry.file q c' :: l) p =
            (match lookupFile l p with
              | some c'' => some c''
              | none => if q = p then some c' else none) from rfl]
          rw [ih]

theorem lookupFile_copyTreeE (src : List FsEntry) (dst : FS) (p : List String) :
    lookupFile (copyTreeE src dst) p =
      match lookupFile src p with
      | some c => some c
      | none => lookupFile dst p := by
  induction src generalizing dst with
  | nil => rfl
  | cons e src ih =>
    cases e with
    | dir q =>
      rw [show copyTreeE (FsEntry.dir q :: src) dst =
        copyTreeE src (addDirNF q dst) from rfl]
      rw [ih, lookupFile_addDirNF]
      rw [show lookupFile (FsEntry.dir q :: src) p = lookupFile src p from rfl]
    | file q c =>
      rw [show copyTreeE (FsEntry.file q c :: src) dst =
        copyTreeE src (copyFileTo q c dst) from rfl]
      rw [ih, lookupFile_copyFileTo]
      rw [show lookupFile (FsEntry.file q c :: src) p =
        (match lookupFile src p with
          | some c' => some c'
          | none => if q = p then some c else none) from rfl]
      cases lookupFile src p with
      | some c' => rfl
      | none =>
        by_cases hq : q = p <;> simp [hq]

theorem lookupFile_filter_gitFree (l : FS) (p : List String) :
    lookupFile (l.filter gitFreeE) p =
      if gitFreeP p = true then lookupFile l p else none := by
  induction l with
  | nil => simp [lookupFile]
  | cons e l ih =>
    cases e with
    | dir q =>
      by_cases hq : gitFreeE (FsEntry.dir q) = true
      · rw [List.filter_cons_of_pos hq]
        rw [show lookupFile (FsEntry.dir q :: List.filter gitFreeE l) p =
          lookupFile (List.filter gitFreeE l) p from rfl]
        rw [show lookupFile (FsEntry.dir q :: l) p = lookupFile l p from rfl]
        exact ih
      · rw [List.filter_cons_of_neg (by simpa using hq)]
        rw [show lookupFile (FsEntry.dir q :: l) p = lookupFile l p from rfl]
        exact ih
    | file q c =>
      have hge : gitFreeE (FsEntry.file q c) = gitFreeP q := rfl
      by_cases hq : gitFreeP q = true
      · rw [List.filter_cons_of_pos (by rw [hge]; exact hq)]
        rw [show lookupFile (FsEntry.file q c :: List.filter gitFreeE l) p =
          (match lookupFile (List.filter gitFreeE l) p with
            | some c' => some c'
            | none => if q = p then some c else none) from rfl]
        rw [show lookupFile (FsEntry.file q c :: l) p =
          (match lookupFile l p with
            | some c' => some c'
            | none => if q = p then some c else none) from rfl]
        rw [ih]
        by_cases hgp : gitFreeP p = true
        · simp [hgp]
        · simp only [if_neg hgp]
          have hqp : q ≠ p := by
            intro h
            subst h
            exact hgp hq
          simp [hqp]
      · rw [List.filter_cons_of_neg (by rw [hge]; simpa using hq)]
        rw [show lookupFile (FsEntry.file q c :: l) p =
          (match lookupFile l p with
            | some c' => some c'
            | none => if q = p then some c else none) from rfl]
        rw [ih]
        by_cases hgp : gitFreeP p = true
        · have hqp : q ≠ p := by
            intro h
            subst h
            exact hq hgp
          cases hl : lookupFile l p <;> simp [hgp, hqp, hl]
        · simp [hgp]

theorem mem_of_lookupFile {l : FS} {p : List String} {c : List Nat}
    (h : lookupFile l p = some c) : FsEntry.file p c ∈ l := by
  induction l with
  | nil => exact absurd h (by simp [lookupFile])
  | cons e l ih =>
    cases e with
    | dir q => exact List.mem_cons_of_mem _ (ih h)
    | file q c' =>
      rw [show lookupFile (FsEntry.file q c' :: l) p =
        (match lookupFile l p with
          | some c'' => some c''
          | none => if q = p then some c' else none) from rfl] at h
      cases hl : lookupFile l p with
      | some c'' =>
        rw [hl] at h
        have : c'' = c := Option.some.inj h
        subst this
        exact List.mem_cons_of_mem _ (ih hl)
      | none =>
        rw [hl] at h
        by_cases hq : q = p
        · rw [if_pos hq] at h
          have hc := Option.some.inj h
          subst hq
          subst hc
          exact List.mem_cons_self _ _
        · rw [if_neg hq] at h
          exact absurd h (by simp)

theorem hasDir_addDirNF (q : List String) (fs : FS) (r : List String) :
    hasDir (addDirNF q fs) r = true ↔ hasDir fs r = true ∨ r ∈ nePrefixes q := by
  rw [addDirNF, hasDir_append, Bool.or_eq_true]
  constructor
  · rintro (h | h)
    · exact Or.inl h
    · right
      rw [hasDir_iff] at h
      obtain ⟨q', hq', heq⟩ := List.mem_filterMap.mp h
      by_cases hd : hasDir fs q' = true
      · rw [if_pos hd] at heq
        exact Option.noConfusion heq
      · rw [if_neg hd] at heq
        rw [show q' = r from FsEntry.dir.inj (Option.some.inj heq)] at hq'
        exact hq'
  · rintro (h | h)
    · exact Or.inl h
    · by_cases hd : hasDir fs r = true
      · exact Or.inl hd
      · right
        rw [hasDir_iff]
        exact List.mem_filterMap.mpr ⟨r, h, by rw [if_neg hd]⟩

theorem hasDir_copyFileTo (p : List String) (c : List Nat) (fs : FS)
    (r : List String) :
    hasDir (copyFileTo p c fs) r = hasDir fs r := by
  rw [copyFileTo, hasDir_append, hasDir_file_singleton, Bool.or_false]
  cases h : hasDir fs r with
  | true =>
    rw [hasDir_iff] at h ⊢
    exact List.mem_filter.mpr ⟨h, rfl⟩
  | false =>
    by_contra hc
    rw [Bool.not_eq_false, hasDir_iff] at hc
    have := (List.mem_filter.mp hc).1
    rw [← hasDir_iff] at this
    rw [this] at h
    exact Bool.noConfusion h

theorem hasDir_copyTreeE (src : List FsEntry) (dst : FS) (r : List String) :
    hasDir (copyTreeE src dst) r = true ↔
      hasDir dst r = true ∨ ∃ q, FsEntry.dir q ∈ src ∧ r ∈ nePrefixes q := by
  induction src generalizing dst with
  | nil => simp [copyTreeE]
  | cons e src ih =>
    cases e with
    | dir q0 =>
      rw [show copyTreeE (FsEntry.dir q0 :: src) dst =
        copyTreeE src (addDirNF q0 dst) from rfl, ih]
      rw [show (hasDir (addDirNF q0 dst) r = true) ↔ _ from hasDir_addDirNF q0 dst r]
      constructor
      · rintro ((h | h) | ⟨q, hq, hr⟩)
        · exact Or.inl h
        · exact Or.inr ⟨q0, List.mem_cons_self _ _, h⟩
        · exact Or.inr ⟨q, List.mem_cons_of_mem _ hq, hr⟩
      · rintro (h | ⟨q, hq, hr⟩)
        · exact Or.inl (Or.inl h)
        · rcases List.mem_cons.mp hq with heq | hmem
          · left; right
            rw [show q0 = q from FsEntry.dir.inj heq.symm]
            exact hr
          · exact Or.inr ⟨q, hmem, hr⟩
    | file q0 c0 =>
      rw [show copyTreeE (FsEntry.file q0 c0 :: src) dst =
        copyTreeE src (copyFileTo q0 c0 dst) from rfl, ih, hasDir_copyFileTo]
      constructor
      · rintro (h | ⟨q, hq, hr⟩)
        · exact Or.inl h
        · exact Or.inr ⟨q, List.mem_cons_of_mem _ hq, hr⟩
      · rintro (h | ⟨q, hq, hr⟩)
        · exact Or.inl h
        · rcases List.mem_cons.mp hq with heq | hmem
          · exact absurd heq (by simp)
          · exact Or.inr ⟨q, hmem, hr⟩

theorem gitFreeP_of_mem_nePrefixes {r q : List String} (hr : r ∈ nePrefixes q)
    (h : gitFreeP q = true) : gitFreeP r = true := by
  rw [gitFreeP, List.all_eq_true] at h ⊢
  intro x hx
  obtain ⟨i, _, rfl⟩ := List.mem_map.mp hr
  exact h x (List.take_subset _ _ hx)

/-! ### Claim C1: copy-out happens iff the operation succeeds -/

/-- C1: in every `with_repo` run, if the caller-supplied operation returns
an error, the whole call returns it immediately, the copy-out loop never
runs, and the destination tree is byte-identical to its pre-call state;
copy-out onto the destination runs if and only if the operation returns
successfully. -/
theorem c1_copy_out_iff_success (pristine destE : FS)
    (cb : FS → Except CbErr FS) :
    (∀ e, cb (copyIn pristine destE) = Except.error e →
      withRepo pristine destE cb = (destE, false, some e)) ∧
    ((withRepo pristine destE cb).2.1 = true ↔
      ∃ s, cb (copyIn pristine destE) = Except.ok s) := by
  constructor
  · intro e he
    simp only [withRepo, he]
  · cases hcb : cb (copyIn pristine destE) with
    | error e => simp [withRepo, hcb]
    | ok s => simp [withRepo, hcb]

/-- Witness for C1 with a failing operation. -/
theorem c1_witness :
    withRepo [] [FsEntry.file ["a"] [1]] (fun _ => Except.error CbErr.opFailed) =
      ([FsEntry.file ["a"] [1]], false, some CbErr.opFailed) :=
  (c1_copy_out_iff_success [] [FsEntry.file ["a"] [1]]
    (fun _ => Except.error CbErr.opFailed)).1 CbErr.opFailed rfl

/-! ### Claim C2: sessions with a no-op operation -/

/-- C2 counterexample: a `with_repo` run whose operation performs no
mutation does not leave every destination byte-identical — a pristine
upstream file absent from the destination is copied out onto it. Here the
destination starts empty and gains the file `a`. -/
theorem c2_counterexample :
    (withRepo [FsEntry.file ["a"] [1]] [] fun s => Except.ok s).1 =
      [FsEntry.file ["a"] [1]] ∧
    ([FsEntry.file ["a"] [1]] : FS) ≠ [] :=
  ⟨by decide, by decide⟩

/-- C2 amended: a session whose operation performs no mutation preserves
the content of every pre-existing destination file and removes no
directory, but files present in the pristine upstream subtree (outside
`.git`-named components) and absent from the destination are added by
copy-out; the destination is byte-identical to before exactly when the
pristine subtree introduces no file the destination lacks. -/
theorem c2_amended_idempotence (pristine destE : FS) :
    (∀ p, lookupFile (withRepo pristine destE (fun s => Except.ok s)).1 p =
      match lookupFile destE p with
      | some c => some c
      | none => if gitFreeP p = true then lookupFile pristine p else none) ∧
    (∀ r, hasDir destE r = true →
      hasDir (withRepo pristine destE (fun s => Except.ok s)).1 r = true) ∧
    ((pristine.all fun e => match e with
      | FsEntry.file q _ => !gitFreeP q || (lookupFile destE q).isSome
      | FsEntry.dir _ => true) = true →
      ∀ p, lookupFile (withRepo pristine destE (fun s => Except.ok s)).1 p =
        lookupFile destE p) := by
  have hfinal : (withRepo pristine destE (fun s => Except.ok s)).1 =
      copyTreeE (FsEntry.dir [] :: (copyIn pristine destE).filter gitFreeE)
        destE := rfl
  have hmain : ∀ p,
      lookupFile (withRepo pristine destE (fun s => Except.ok s)).1 p =
        match lookupFile destE p with
        | some c => some c
        | none => if gitFreeP p = true then lookupFile pristine p else none := by
    intro p
    rw [hfinal, lookupFile_copyTreeE]
    rw [show lookupFile
        (FsEntry.dir [] :: (copyIn pristine destE).filter gitFreeE) p =
      lookupFile ((copyIn pristine destE).filter gitFreeE) p from rfl]
    rw [lookupFile_filter_gitFree]
    rw [show copyIn pristine destE =
      copyTreeE (FsEntry.dir [] :: destE) (FsEntry.dir [".git"] :: pristine)
      from rfl]
    rw [lookupFile_copyTreeE]
    rw [show lookupFile (FsEntry.dir [] :: destE) p = lookupFile destE p
      from rfl]
    rw [show lookupFile (FsEntry.dir [".git"] :: pristine) p =
      lookupFile pristine p from rfl]
    by_cases hg : gitFreeP p = true
    · rw [if_pos hg, if_pos hg]
      cases hd : lookupFile destE p with
      | some c => rfl
      | none => cases hp : lookupFile pristine p <;> rfl
    · rw [if_neg hg, if_neg hg]
      cases hd : lookupFile destE p <;> rfl
  refine ⟨hmain, ?_, ?_⟩
  · intro r hr
    rw [hfinal]
    exact (hasDir_copyTreeE _ _ _).mpr (Or.inl hr)
  · intro hcov p
    rw [List.all_eq_true] at hcov
    rw [hmain p]
    cases hd : lookupFile destE p with
    | some c => rfl
    | none =>
      by_cases hg : gitFreeP p = true
      · rw [if_pos hg]
        cases hp : lookupFile pristine p with
        | none => rfl
        | some c =>
          have hmem := mem_of_lookupFile hp
          have h1 := hcov _ hmem
          simp only [hg, Bool.not_true, Bool.false_or] at h1
          rw [hd] at h1
          exact absurd h1 (by simp)
      · rw [if_neg hg]

/-- Witness for C2's amended theorem at a concrete session. -/
theorem c2_witness :
    (lookupFile (withRepo [FsEntry.file ["a"] [1]]
        [FsEntry.dir ["d"], FsEntry.file ["a"] [9]] (fun s => Except.ok s)).1
        ["a"] =
      match lookupFile [FsEntry.dir ["d"], FsEntry.file ["a"] [9]] ["a"] with
      | some c => some c
      | none => if gitFreeP ["a"] = true then
          lookupFile [FsEntry.file ["a"] [1]] ["a"] else none) ∧
    hasDir (withRepo [FsEntry.file ["a"] [1]]
        [FsEntry.dir ["d"], FsEntry.file ["a"] [9]] (fun s => Except.ok s)).1
      ["d"] = true ∧
    lookupFile (withRepo [FsEntry.file ["a"] [1]]
        [FsEntry.dir ["d"], FsEntry.file ["a"] [9]] (fun s => Except.ok s)).1
      ["a"] =
      lookupFile [FsEntry.dir ["d"], FsEntry.file ["a"] [9]] ["a"] :=
  ⟨(c2_amended_idempotence [FsEntry.file ["a"] [1]]
      [FsEntry.dir ["d"], FsEntry.file ["a"] [9]]).1 ["a"],
   (c2_amended_idempotence [FsEntry.file ["a"] [1]]
      [FsEntry.dir ["d"], FsEntry.file ["a"] [9]]).2.1 ["d"] (by decide),
   (c2_amended_idempotence [FsEntry.file ["a"] [1]]
      [FsEntry.dir ["d"], FsEntry.file ["a"] [9]]).2.2 (by decide) ["a"]⟩

/-! ### Claim C9: the copy-out walk's `.git` filter -/

/-- C9: the copy-out walk of `with_repo` skips every entry whose file name
is `.git` at any depth of the scratch tree (its whole subtree is pruned,
so exactly the paths with a `.git` component are skipped, and the
destination at such paths is untouched), and every other file and
directory of the scratch working tree is copied back onto the
destination. -/
theorem c9_copyout_git_filter (pristine destE : FS)
    (cb : FS → Except CbErr FS) (s2 : FS)
    (hok : cb (copyIn pristine destE) = Except.ok s2) :
    (∀ p, gitFreeP p = false →
      lookupFile (withRepo pristine destE cb).1 p = lookupFile destE p ∧
      hasDir (withRepo pristine destE cb).1 p = hasDir destE p) ∧
    (∀ p c, gitFreeP p = true → lookupFile s2 p = some c →
      lookupFile (withRepo pristine destE cb).1 p = some c) ∧
    (∀ q, q ≠ [] → gitFreeP q = true → hasDir s2 q = true →
      hasDir (withRepo pristine destE cb).1 q = true) := by
  have hfinal : (withRepo pristine destE cb).1 =
      copyTreeE (FsEntry.dir [] :: s2.filter gitFreeE) destE := by
    simp only [withRepo, hok]
  have hnodirs : ∀ p, gitFreeP p = false →
      ¬ ∃ q, FsEntry.dir q ∈ FsEntry.dir [] :: s2.filter gitFreeE ∧
        p ∈ nePrefixes q := by
    rintro p hp ⟨q, hq, hpq⟩
    rcases List.mem_cons.mp hq with heq | hmem
    · rw [show q = [] from FsEntry.dir.inj heq] at hpq
      simp [nePrefixes] at hpq
    · have hfree : gitFreeE (FsEntry.dir q) = true := (List.mem_filter.mp hmem).2
      have : gitFreeP p = true :=
        gitFreeP_of_mem_nePrefixes hpq (by exact hfree)
      rw [hp] at this
      exact Bool.noConfusion this
  refine ⟨?_, ?_, ?_⟩
  · intro p hp
    constructor
    · rw [hfinal, lookupFile_copyTreeE]
      rw [show lookupFile (FsEntry.dir [] :: s2.filter gitFreeE) p =
        lookupFile (s2.filter gitFreeE) p from rfl]
      rw [lookupFile_filter_gitFree, hp]
      rfl
    · rw [hfinal]
      cases hd : hasDir destE p with
      | true => exact (hasDir_copyTreeE _ _ _).mpr (Or.inl hd)
      | false =>
        by_contra hc
        rw [Bool.not_eq_false] at hc
        rcases (hasDir_copyTreeE _ _ _).mp hc with h | hex
        · rw [hd] at h
          exact Bool.noConfusion h
        · exact hnodirs p hp hex
  · intro p c hp hs2
    rw [hfinal, lookupFile_copyTreeE]
    rw [show lookupFile (FsEntry.dir [] :: s2.filter gitFreeE) p =
      lookupFile (s2.filter gitFreeE) p from rfl]
    rw [lookupFile_filter_gitFree, if_pos hp, hs2]
  · intro q hq hfree hs2
    rw [hfinal]
    refine (hasDir_copyTreeE _ _ _).mpr (Or.inr ⟨q, ?_, self_mem_nePrefixes hq⟩)
    refine List.mem_cons_of_mem _ (List.mem_filter.mpr ⟨?_, ?_⟩)
    · exact hasDir_iff.mp hs2
    · exact hfree

/-- Witness for C9 at a concrete scratch tree containing nested `.git`
entries. -/
theorem c9_witness :
    (gitFreeP [".git", "x"] = false ∧
      lookupFile (withRepo [] []
        (fun _ => Except.ok [FsEntry.dir [".git"],
          FsEntry.file [".git", "x"] [1], FsEntry.file ["keep"] [2],
          FsEntry.dir ["sub"]])).1 [".git", "x"] = lookupFile [] [".git", "x"]) ∧
    lookupFile (withRepo [] []
      (fun _ => Except.ok [FsEntry.dir [".git"],
        FsEntry.file [".git", "x"] [1], FsEntry.file ["keep"] [2],
        FsEntry.dir ["sub"]])).1 ["keep"] = some [2] ∧
    hasDir (withRepo [] []
      (fun _ => Except.ok [FsEntry.dir [".git"],
        FsEntry.file [".git", "x"] [1], FsEntry.file ["keep"] [2],
        FsEntry.dir ["sub"]])).1 ["sub"] = true := by
  have h := c9_copyout_git_filter [] []
    (fun _ => Except.ok [FsEntry.dir [".git"], FsEntry.file [".git", "x"] [1],
      FsEntry.file ["keep"] [2], FsEntry.dir ["sub"]])
    [FsEntry.dir [".git"], FsEntry.file [".git", "x"] [1],
      FsEntry.file ["keep"] [2], FsEntry.dir ["sub"]] rfl
  refine ⟨⟨by decide, ?_⟩, ?_, ?_⟩
  · exact (h.1 [".git", "x"] (by decide)).1
  · exact h.2.1 ["keep"] [2] (by decide) (by decide)
  · exact h.2.2 ["sub"] (by decide) (by decide) (by decide)

end GitSubcopy
